import Mathlib

/-!
Verification of the message-board formatting logic of `src/fusemods.js`:
the HTML escaper `escapeHtml`, the tokenizer (the regex split on
`&([0-9a-fA-FklmnoBIr])` with a capturing group), the code table
`formatMap`, and the state machine of `formatMessageBoardText`.
Text is modelled as `List Char`.
-/

namespace Fusemods

/-- The character class of the tokenizer regex `&([0-9a-fA-FklmnoBIr])`,
written out: the ranges `0-9`, `a-f`, `A-F` and the characters
`k l m n o B I r` (`B` occurs both in `A-F` and on its own, as in the
regex). -/
def codeAlphabet : List Char :=
  "0123456789abcdefABCDEFklmnoBIr".data

/-- A part of the `split` result: at even indices literal text, at odd
indices the captured code character. -/
inductive Token where
  | text : List Char → Token
  | code : Char → Token
deriving DecidableEq, Repr

/-- Left-to-right scan of `originalTextContent.split(/&([0-9a-fA-FklmnoBIr])/g)`:
a `&` immediately followed by an alphabet character yields the pending text
part and a captured code character; any other character (including a `&`
with a non-alphabet follower or a trailing `&`) is accumulated as text.
`acc` is the pending literal text, reversed. -/
def tokenizeAux : List Char → List Char → List Token
  | acc, [] => [Token.text acc.reverse]
  | acc, [c] => [Token.text (c :: acc).reverse]
  | acc, c :: d :: rest =>
    if c = '&' ∧ d ∈ codeAlphabet then
      Token.text acc.reverse :: Token.code d :: tokenizeAux [] rest
    else
      tokenizeAux (c :: acc) (d :: rest)

/-- The parts array of `split`, as an alternating text/code token list
(first and last parts are always text, possibly empty). -/
def tokenize (s : List Char) : List Token :=
  tokenizeAux [] s

/-- One step of `escapeHtml`: the replacement map of
`text.replace(/[&<>"']/g, m => map[m])` applied to a single character. -/
def escapeChar (c : Char) : List Char :=
  if c = '&' then "&amp;".data
  else if c = '<' then "&lt;".data
  else if c = '>' then "&gt;".data
  else if c = Char.ofNat 34 then "&quot;".data
  else if c = Char.ofNat 39 then "&#039;".data
  else [c]

/-- `escapeHtml`: replace every occurrence of one of the five special
characters, leave every other character unchanged. -/
def escapeHtml (t : List Char) : List Char :=
  (t.map escapeChar).flatten

/-- The entries of the `formatMap` object literal, in source order,
including the duplicate `&i` key (in a JS object literal a later
duplicate key overwrites the earlier one; both bind the same value). -/
def formatMapEntries : List (List Char × List Char) :=
  [("&0".data, "message-color-0".data),
   ("&1".data, "message-color-1".data),
   ("&2".data, "message-color-2".data),
   ("&3".data, "message-color-3".data),
   ("&4".data, "message-color-4".data),
   ("&5".data, "message-color-5".data),
   ("&k".data, "message-format-obfuscated".data),
   ("&l".data, "message-format-bold".data),
   ("&m".data, "message-format-strikethrough".data),
   ("&n".data, "message-format-underline".data),
   ("&i".data, "message-format-italic".data),
   ("&b".data, "message-format-bold".data),
   ("&i".data, "message-format-italic".data),
   ("&r".data, "message-format-reset".data)]

/-- `formatMap[code]`: property lookup on the object literal — the last
entry with the given key wins. -/
def formatMapLookup (code : List Char) : Option (List Char) :=
  (formatMapEntries.reverse.find? (fun e => decide (e.1 = code))).map Prod.snd

/-- The values of the `formatMap` object. -/
def formatMapValues : List (List Char) :=
  formatMapEntries.map Prod.snd

/-- The mutable state of the loop in `formatMessageBoardText`:
`activeClasses` (a JS `Set`, iterated in insertion order) and
`activeColorClass` (`null` or one class). -/
structure StyleState where
  activeClasses : List (List Char)
  activeColorClass : Option (List Char)
deriving DecidableEq, Repr

/-- The state at loop entry: empty set, no color. -/
def initState : StyleState :=
  { activeClasses := [], activeColorClass := none }

/-- `classesToApply`: `Array.from(activeClasses)` followed by
`activeColorClass` when set. -/
def classesToApply (st : StyleState) : List (List Char) :=
  st.activeClasses ++
    (match st.activeColorClass with
     | some c => [c]
     | none => [])

/-- The state update for a recognized code's class name: reset clears
both fields; a `message-color-` class replaces `activeColorClass`; a
`message-format-` class is added to the set (`Set.add` keeps insertion
order and ignores duplicates). -/
def applyCode (st : StyleState) (className : List Char) : StyleState :=
  if className = "message-format-reset".data then
    { activeClasses := [], activeColorClass := none }
  else if List.isPrefixOf "message-color-".data className then
    { st with activeColorClass := some className }
  else if List.isPrefixOf "message-format-".data className then
    { st with activeClasses :=
        if className ∈ st.activeClasses then st.activeClasses
        else st.activeClasses ++ [className] }
  else
    st

/-- A segment appended to `formattedHtml`: the class list in effect and
the escaped text. -/
abbrev Segment := List (List Char) × List Char

/-- What one loop iteration appends to `formattedHtml`, as a segment
list: non-empty text parts are emitted with the current classes; a code
part with no `formatMap` entry is emitted literally (escaped) with the
current classes; a recognized code emits nothing. -/
def stepEmit (st : StyleState) : Token → List Segment
  | Token.text t =>
    if t = [] then [] else [(classesToApply st, escapeHtml t)]
  | Token.code c =>
    match formatMapLookup ['&', c] with
    | none => [(classesToApply st, escapeHtml ['&', c])]
    | some _ => []

/-- How one loop iteration updates the state: only a recognized code
changes it. -/
def stepState (st : StyleState) : Token → StyleState
  | Token.text _ => st
  | Token.code c =>
    match formatMapLookup ['&', c] with
    | none => st
    | some className => applyCode st className

/-- The loop of `formatMessageBoardText` over the parts, collecting the
emitted segments in order. -/
def processTokens : StyleState → List Token → List Segment
  | _, [] => []
  | st, t :: rest => stepEmit st t ++ processTokens (stepState st t) rest

/-- The state after processing a token list (the loop's state evolution). -/
def stateAfter : StyleState → List Token → StyleState
  | st, [] => st
  | st, t :: rest => stateAfter (stepState st t) rest

/-- Rendering of one segment into HTML: bare escaped text when no class
is active, otherwise a single `span` whose `class` attribute is the
space-joined class list. -/
def renderSegment : Segment → List Char
  | (classes, txt) =>
    if classes = [] then txt
    else
      "<span class=\"".data ++ List.intercalate [' '] classes ++
        "\">".data ++ txt ++ "</span>".data

/-- The segments emitted by `formatMessageBoardText` on an input. -/
def formatSegments (s : List Char) : List Segment :=
  processTokens initState (tokenize s)

/-- `formatMessageBoardText`: the concatenation of the rendered segments. -/
def formatMessageBoardText (s : List Char) : List Char :=
  ((formatSegments s).map renderSegment).flatten

/-- The output with the wrapping span structure dropped: the
concatenation of the segments' (escaped) text contents. -/
def strippedContent (s : List Char) : List Char :=
  ((formatSegments s).map Prod.snd).flatten

/-- Inverse of `escapeHtml`: a left-to-right scan replacing each of the
five character references by its character. -/
def unescapeHtml : List Char → List Char
  | [] => []
  | c :: rest =>
    if c = '&' then
      if List.isPrefixOf "amp;".data rest then '&' :: unescapeHtml (rest.drop 4)
      else if List.isPrefixOf "lt;".data rest then '<' :: unescapeHtml (rest.drop 3)
      else if List.isPrefixOf "gt;".data rest then '>' :: unescapeHtml (rest.drop 3)
      else if List.isPrefixOf "quot;".data rest then Char.ofNat 34 :: unescapeHtml (rest.drop 5)
      else if List.isPrefixOf "#039;".data rest then Char.ofNat 39 :: unescapeHtml (rest.drop 5)
      else c :: unescapeHtml rest
    else c :: unescapeHtml rest
termination_by s => s.length
decreasing_by all_goals simp_wf <;> omega

/-- Reassembling a token list into the raw characters it came from:
text parts verbatim, a code part as marker plus captured character. -/
def detok : List Token → List Char
  | [] => []
  | Token.text t :: rest => t ++ detok rest
  | Token.code c :: rest => '&' :: c :: detok rest

/-- The plain-text content the engine emits (before escaping): text
parts verbatim and unrecognized code parts literally; recognized codes
are consumed. -/
def plainTokens : List Token → List Char
  | [] => []
  | Token.text t :: rest => t ++ plainTokens rest
  | Token.code c :: rest =>
    (match formatMapLookup ['&', c] with
     | none => ['&', c]
     | some _ => []) ++ plainTokens rest

/-- The alphabet characters whose code has an entry in `formatMap`. -/
def mappedAlphabetChars : List Char :=
  ['0', '1', '2', '3', '4', '5', 'b', 'k', 'l', 'm', 'n', 'r']

/-- The alphabet characters whose code has no entry in `formatMap`. -/
def unmappedAlphabetChars : List Char :=
  ['6', '7', '8', '9', 'a', 'c', 'd', 'e', 'f',
   'A', 'B', 'C', 'D', 'E', 'F', 'I', 'o']

/-- The code characters of kind Color. -/
def colorChars : List Char :=
  ['0', '1', '2', '3', '4', '5']

/-- The six color class names. -/
def colorClassNames : List (List Char) :=
  ["message-color-0".data, "message-color-1".data, "message-color-2".data,
   "message-color-3".data, "message-color-4".data, "message-color-5".data]

/-- The closed set of class names of the styling contract. -/
def allowedClassNames : List (List Char) :=
  ["message-color-0".data, "message-color-1".data, "message-color-2".data,
   "message-color-3".data, "message-color-4".data, "message-color-5".data,
   "message-format-bold".data, "message-format-strikethrough".data,
   "message-format-underline".data, "message-format-italic".data,
   "message-format-obfuscated".data, "message-format-reset".data]

/-! ### Tokenizer lemmas -/

theorem tokenizeAux_append_no_amp (t : List Char) :
    ∀ acc s, '&' ∉ t → tokenizeAux acc (t ++ s) = tokenizeAux (t.reverse ++ acc) s := by
  induction t with
  | nil => intro acc s _; rfl
  | cons x t ih =>
    intro acc s hx
    have hxe : x ≠ '&' := fun h => hx (by simp [h])
    have ht : '&' ∉ t := fun h => hx (by simp [h])
    cases hts : t ++ s with
    | nil =>
      rcases List.append_eq_nil.mp hts with ⟨h1, h2⟩
      subst h1; subst h2
      simp [tokenizeAux]
    | cons y r =>
      show tokenizeAux acc (x :: (t ++ s)) = _
      rw [hts]
      rw [show tokenizeAux acc (x :: y :: r) = tokenizeAux (x :: acc) (y :: r) from by
        rw [tokenizeAux]; rw [if_neg (fun hc => hxe hc.1)]]
      rw [← hts, ih (x :: acc) s ht]
      simp

theorem tokenize_no_amp (s : List Char) (h : '&' ∉ s) :
    tokenize s = [Token.text s] := by
  have := tokenizeAux_append_no_amp s [] [] (by simpa using h)
  simpa [tokenize, tokenizeAux] using this

theorem detok_tokenizeAux (acc s : List Char) :
    detok (tokenizeAux acc s) = acc.reverse ++ s := by
  induction acc, s using tokenizeAux.induct with
  | case1 acc => simp [tokenizeAux, detok]
  | case2 acc c => simp [tokenizeAux, detok]
  | case3 acc c d rest h ih =>
    rw [tokenizeAux, if_pos h]
    simp [detok, ih, h.1]
  | case4 acc c d rest h ih =>
    rw [tokenizeAux, if_neg h]
    rw [ih]
    simp

theorem detok_tokenize (s : List Char) : detok (tokenize s) = s := by
  simpa [tokenize] using detok_tokenizeAux [] s

theorem code_mem_alphabet (acc s : List Char) (c : Char)
    (h : Token.code c ∈ tokenizeAux acc s) : c ∈ codeAlphabet := by
  induction acc, s using tokenizeAux.induct with
  | case1 acc => simp [tokenizeAux] at h
  | case2 acc c0 => simp [tokenizeAux] at h
  | case3 acc c0 d rest hcd ih =>
    rw [tokenizeAux, if_pos hcd] at h
    rcases List.mem_cons.mp h with h | h
    · cases h
    · rcases List.mem_cons.mp h with h | h
      · cases h; exact hcd.2
      · exact ih h
  | case4 acc c0 d rest hcd ih =>
    rw [tokenizeAux, if_neg hcd] at h
    exact ih h

/-! ### Escaper round-trip lemmas -/

theorem unescapeHtml_nil : unescapeHtml [] = [] := by
  unfold unescapeHtml
  rfl

theorem unescapeHtml_amp (xs : List Char) :
    unescapeHtml ('&' :: 'a' :: 'm' :: 'p' :: ';' :: xs) = '&' :: unescapeHtml xs := by
  conv_lhs => unfold unescapeHtml
  simp +decide [List.isPrefixOf]

theorem unescapeHtml_lt (xs : List Char) :
    unescapeHtml ('&' :: 'l' :: 't' :: ';' :: xs) = '<' :: unescapeHtml xs := by
  conv_lhs => unfold unescapeHtml
  simp +decide [List.isPrefixOf]

theorem unescapeHtml_gt (xs : List Char) :
    unescapeHtml ('&' :: 'g' :: 't' :: ';' :: xs) = '>' :: unescapeHtml xs := by
  conv_lhs => unfold unescapeHtml
  simp +decide [List.isPrefixOf]

theorem unescapeHtml_quot (xs : List Char) :
    unescapeHtml ('&' :: 'q' :: 'u' :: 'o' :: 't' :: ';' :: xs)
      = Char.ofNat 34 :: unescapeHtml xs := by
  conv_lhs => unfold unescapeHtml
  simp +decide [List.isPrefixOf]

theorem unescapeHtml_apos (xs : List Char) :
    unescapeHtml ('&' :: '#' :: '0' :: '3' :: '9' :: ';' :: xs)
      = Char.ofNat 39 :: unescapeHtml xs := by
  conv_lhs => unfold unescapeHtml
  simp +decide [List.isPrefixOf]

theorem unescapeHtml_cons_ne (c : Char) (hc : c ≠ '&') (xs : List Char) :
    unescapeHtml (c :: xs) = c :: unescapeHtml xs := by
  conv_lhs => unfold unescapeHtml
  rw [if_neg hc]

theorem unescape_escape_append (t : List Char) :
    ∀ r, unescapeHtml (escapeHtml t ++ r) = t ++ unescapeHtml r := by
  induction t with
  | nil => intro r; simp [escapeHtml]
  | cons c t ih =>
    intro r
    have he : escapeHtml (c :: t) = escapeChar c ++ escapeHtml t := by
      simp [escapeHtml]
    rw [he, List.append_assoc]
    by_cases h1 : c = '&'
    · subst h1
      rw [show escapeChar '&' = "&amp;".data from rfl]
      rw [show ("&amp;".data ++ (escapeHtml t ++ r))
            = '&' :: 'a' :: 'm' :: 'p' :: ';' :: (escapeHtml t ++ r) from rfl]
      rw [unescapeHtml_amp, ih]; rfl
    · by_cases h2 : c = '<'
      · subst h2
        rw [show escapeChar '<' = "&lt;".data from rfl]
        rw [show ("&lt;".data ++ (escapeHtml t ++ r))
              = '&' :: 'l' :: 't' :: ';' :: (escapeHtml t ++ r) from rfl]
        rw [unescapeHtml_lt, ih]; rfl
      · by_cases h3 : c = '>'
        · subst h3
          rw [show escapeChar '>' = "&gt;".data from rfl]
          rw [show ("&gt;".data ++ (escapeHtml t ++ r))
                = '&' :: 'g' :: 't' :: ';' :: (escapeHtml t ++ r) from rfl]
          rw [unescapeHtml_gt, ih]; rfl
        · by_cases h4 : c = Char.ofNat 34
          · subst h4
            rw [show escapeChar (Char.ofNat 34) = "&quot;".data from rfl]
            rw [show ("&quot;".data ++ (escapeHtml t ++ r))
                  = '&' :: 'q' :: 'u' :: 'o' :: 't' :: ';' :: (escapeHtml t ++ r) from rfl]
            rw [unescapeHtml_quot, ih]; rfl
          · by_cases h5 : c = Char.ofNat 39
            · subst h5
              rw [show escapeChar (Char.ofNat 39) = "&#039;".data from rfl]
              rw [show ("&#039;".data ++ (escapeHtml t ++ r))
                    = '&' :: '#' :: '0' :: '3' :: '9' :: ';' :: (escapeHtml t ++ r) from rfl]
              rw [unescapeHtml_apos, ih]; rfl
            · rw [show escapeChar c = [c] from by simp [escapeChar, h1, h2, h3, h4, h5]]
              rw [List.singleton_append, unescapeHtml_cons_ne c h1, ih]; rfl

theorem unescape_escape (t : List Char) : unescapeHtml (escapeHtml t) = t := by
  have h := unescape_escape_append t []
  rw [List.append_nil] at h
  rw [h, unescapeHtml_nil, List.append_nil]

theorem unescape_processTokens (toks : List Token) :
    ∀ st, unescapeHtml (((processTokens st toks).map Prod.snd).flatten) = plainTokens toks := by
  induction toks with
  | nil => intro st; simp [processTokens, plainTokens, unescapeHtml_nil]
  | cons t rest ih =>
    intro st
    cases t with
    | text txt =>
      by_cases h : txt = []
      · subst h
        simpa [processTokens, stepEmit, stepState, plainTokens] using ih st
      · simp only [processTokens, stepEmit, stepState, if_neg h, plainTokens,
          List.map_cons, List.map_append, List.flatten_cons, List.singleton_append]
        rw [unescape_escape_append, ih st]
    | code c =>
      cases hl : formatMapLookup ['&', c] with
      | none =>
        simp only [processTokens, stepEmit, stepState, hl, plainTokens,
          List.map_cons, List.flatten_cons, List.singleton_append]
        rw [unescape_escape_append, ih st]
      | some cls =>
        simpa [processTokens, stepEmit, stepState, hl, plainTokens]
          using ih (applyCode st cls)

theorem unescape_strippedContent (s : List Char) :
    unescapeHtml (strippedContent s) = plainTokens (tokenize s) := by
  simpa [strippedContent, formatSegments] using unescape_processTokens (tokenize s) initState

/-! ### Code-table lemmas -/

theorem lookup_mem_values {code cls : List Char} (h : formatMapLookup code = some cls) :
    cls ∈ formatMapValues := by
  unfold formatMapLookup at h
  cases hf : formatMapEntries.reverse.find? (fun e => decide (e.1 = code)) with
  | none => rw [hf] at h; cases h
  | some e =>
    rw [hf] at h
    have h2 : some e.2 = some cls := h
    injection h2 with h3
    have hm : e ∈ formatMapEntries.reverse := List.mem_of_find?_eq_some hf
    rw [List.mem_reverse] at hm
    exact h3 ▸ List.mem_map.mpr ⟨e, hm, rfl⟩

/-! ### State-machine lemmas -/

theorem values_allowed : ∀ cls ∈ formatMapValues, cls ∈ allowedClassNames := by
  decide

theorem values_color : ∀ cls ∈ formatMapValues,
    List.isPrefixOf "message-color-".data cls = true → cls ∈ colorClassNames := by
  decide

theorem color_not_prefix_of_format {cls : List Char}
    (hp : List.isPrefixOf "message-format-".data cls = true) :
    List.isPrefixOf "message-color-".data cls = false := by
  rcases List.isPrefixOf_iff_prefix.mp hp with ⟨t, rfl⟩
  simp +decide [List.isPrefixOf]

/-- The class lists of emitted segments are always `classesToApply` of the
state at emission time. -/
theorem stepEmit_fst (st : StyleState) (t : Token) (seg : Segment)
    (h : seg ∈ stepEmit st t) : seg.1 = classesToApply st := by
  cases t with
  | text txt =>
    by_cases he : txt = []
    · simp [stepEmit, he] at h
    · simp [stepEmit, he] at h
      rw [h]
  | code c =>
    cases hl : formatMapLookup ['&', c] with
    | none =>
      simp [stepEmit, hl] at h
      rw [h]
    | some cls => simp [stepEmit, hl] at h

/-- Invariant for the styling contract: every tracked class is in the
closed set. -/
def classInv (st : StyleState) : Prop :=
  (∀ x ∈ st.activeClasses, x ∈ allowedClassNames) ∧
  (∀ x, st.activeColorClass = some x → x ∈ allowedClassNames)

theorem classInv_applyCode (st : StyleState) (cls : List Char)
    (hcls : cls ∈ allowedClassNames) (h : classInv st) :
    classInv (applyCode st cls) := by
  unfold applyCode
  split
  · exact ⟨by simp, by simp⟩
  · split
    · refine ⟨h.1, ?_⟩
      intro x hx
      simp only [Option.some.injEq] at hx
      exact hx ▸ hcls
    · split
      · refine ⟨?_, h.2⟩
        intro x hx
        split at hx
        · exact h.1 x hx
        · rcases List.mem_append.mp hx with hx | hx
          · exact h.1 x hx
          · simp only [List.mem_singleton] at hx
            exact hx ▸ hcls
      · exact h

theorem classInv_stepState (st : StyleState) (t : Token) (h : classInv st) :
    classInv (stepState st t) := by
  cases t with
  | text txt => exact h
  | code c =>
    cases hl : formatMapLookup ['&', c] with
    | none => simpa [stepState, hl] using h
    | some cls =>
      simp only [stepState, hl]
      exact classInv_applyCode st cls (values_allowed cls (lookup_mem_values hl)) h

theorem classesToApply_allowed (st : StyleState) (h : classInv st) :
    ∀ x ∈ classesToApply st, x ∈ allowedClassNames := by
  intro x hx
  unfold classesToApply at hx
  rcases List.mem_append.mp hx with hx | hx
  · exact h.1 x hx
  · cases hc : st.activeColorClass with
    | none => rw [hc] at hx; cases hx
    | some cls =>
      rw [hc] at hx
      simp only [List.mem_singleton] at hx
      exact h.2 x (hx ▸ hc)

theorem processTokens_classes_allowed (toks : List Token) :
    ∀ st, classInv st → ∀ seg ∈ processTokens st toks, ∀ x ∈ seg.1, x ∈ allowedClassNames := by
  induction toks with
  | nil => intro st _ seg hseg; simp [processTokens] at hseg
  | cons t rest ih =>
    intro st hst seg hseg x hx
    rcases List.mem_append.mp hseg with hseg | hseg
    · have := stepEmit_fst st t seg hseg
      exact classesToApply_allowed st hst x (this ▸ hx)
    · exact ih (stepState st t) (classInv_stepState st t hst) seg hseg x hx

/-- Invariant: the reset class is never a member of the format set. -/
def noResetClass (st : StyleState) : Prop :=
  "message-format-reset".data ∉ st.activeClasses

theorem noResetClass_applyCode (st : StyleState) (cls : List Char)
    (h : noResetClass st) : noResetClass (applyCode st cls) := by
  unfold applyCode
  split
  · intro hx; cases hx
  · next hne1 =>
    split
    · exact h
    · split
      · intro hx
        split at hx
        · exact h hx
        · rcases List.mem_append.mp hx with hx | hx
          · exact h hx
          · simp only [List.mem_singleton] at hx
            exact hne1 hx.symm
      · exact h

theorem noResetClass_stepState (st : StyleState) (t : Token) (h : noResetClass st) :
    noResetClass (stepState st t) := by
  cases t with
  | text txt => exact h
  | code c =>
    cases hl : formatMapLookup ['&', c] with
    | none => simpa [stepState, hl] using h
    | some cls =>
      simp only [stepState, hl]
      exact noResetClass_applyCode st cls h

theorem noResetClass_stateAfter (toks : List Token) :
    ∀ st, noResetClass st → noResetClass (stateAfter st toks) := by
  induction toks with
  | nil => intro st h; exact h
  | cons t rest ih =>
    intro st h
    exact ih (stepState st t) (noResetClass_stepState st t h)

/-- Invariant: the active color is unset or one of the six color classes. -/
def colorInv (st : StyleState) : Prop :=
  st.activeColorClass = none ∨
    ∃ cls ∈ colorClassNames, st.activeColorClass = some cls

theorem colorInv_applyCode (st : StyleState) (cls : List Char)
    (hv : cls ∈ formatMapValues) (h : colorInv st) :
    colorInv (applyCode st cls) := by
  unfold applyCode
  split
  · exact Or.inl rfl
  · split
    · next hp =>
      exact Or.inr ⟨cls, values_color cls hv (by simpa using hp), rfl⟩
    · split
      · exact h
      · exact h

theorem colorInv_stepState (st : StyleState) (t : Token) (h : colorInv st) :
    colorInv (stepState st t) := by
  cases t with
  | text txt => exact h
  | code c =>
    cases hl : formatMapLookup ['&', c] with
    | none => simpa [stepState, hl] using h
    | some cls =>
      simp only [stepState, hl]
      exact colorInv_applyCode st cls (lookup_mem_values hl) h

theorem colorInv_stateAfter (toks : List Token) :
    ∀ st, colorInv st → colorInv (stateAfter st toks) := by
  induction toks with
  | nil => intro st h; exact h
  | cons t rest ih =>
    intro st h
    exact ih (stepState st t) (colorInv_stepState st t h)

/-- A color code sets the color to its class and touches nothing else. -/
theorem stepState_color_char (st : StyleState) (c : Char) (hc : c ∈ colorChars) :
    stepState st (Token.code c)
      = { st with activeColorClass := formatMapLookup ['&', c] } := by
  simp only [colorChars, List.mem_cons, List.not_mem_nil, or_false] at hc
  rcases hc with rfl | rfl | rfl | rfl | rfl | rfl <;> rfl

theorem colors_last (cs : List Char) :
    ∀ st c, (∀ x ∈ cs, x ∈ colorChars) → c ∈ colorChars →
      stateAfter st ((cs ++ [c]).map Token.code)
        = { st with activeColorClass := formatMapLookup ['&', c] } := by
  induction cs with
  | nil =>
    intro st c _ hc
    show stepState st (Token.code c) = _
    exact stepState_color_char st c hc
  | cons x cs ih =>
    intro st c hall hc
    show stateAfter (stepState st (Token.code x)) ((cs ++ [c]).map Token.code) = _
    rw [stepState_color_char st x (hall x (by simp))]
    rw [ih _ c (fun y hy => hall y (by simp [hy])) hc]

/-- A trailing marker stays inside the single literal text part. -/
theorem tokenize_trailing (t : List Char) (h : '&' ∉ t) :
    tokenize (t ++ ['&']) = [Token.text (t ++ ['&'])] := by
  unfold tokenize
  rw [tokenizeAux_append_no_amp t [] ['&'] h]
  simp [tokenizeAux]

/-- A marker whose follower is outside the alphabet stays inside the
single literal text part (including a follower that is another marker at
end of input). -/
theorem tokenize_bad_pair (t : List Char) (d : Char) (h : '&' ∉ t)
    (hd : d ∉ codeAlphabet) :
    tokenize (t ++ ['&', d]) = [Token.text (t ++ ['&', d])] := by
  unfold tokenize
  rw [tokenizeAux_append_no_amp t [] ['&', d] h]
  have h1 : tokenizeAux (t.reverse ++ []) ['&', d]
      = tokenizeAux ('&' :: (t.reverse ++ [])) [d] := by
    simp only [tokenizeAux]
    rw [if_neg (fun hc => hd hc.2)]
  rw [h1]
  simp [tokenizeAux]

/-- Processing a single non-empty text part from the clean state renders
as the bare escaped text. -/
theorem render_single_text (x : List Char) (hx : x ≠ []) :
    ((processTokens initState [Token.text x]).map renderSegment).flatten = escapeHtml x := by
  simp [processTokens, stepEmit, hx, renderSegment, classesToApply, initState]

/-- Re-applying a format code whose class is already in the set leaves
the state unchanged. -/
theorem stepState_format_mem (st : StyleState) (c : Char) (cls : List Char)
    (hl : formatMapLookup ['&', c] = some cls)
    (hne : cls ≠ "message-format-reset".data)
    (hp : List.isPrefixOf "message-format-".data cls = true)
    (hmem : cls ∈ st.activeClasses) :
    stepState st (Token.code c) = st := by
  simp only [stepState, hl]
  unfold applyCode
  rw [if_neg hne]
  rw [if_neg (show ¬(List.isPrefixOf "message-color-".data cls = true) from by
    rw [color_not_prefix_of_format hp]; exact fun hcon => Bool.noConfusion hcon)]
  rw [if_pos hp, if_pos hmem]

/-! ### Claims -/

/-- C1: the claim says `&i` is consumed as a Format code mapped to
`message-format-italic`. The format map does bind `&i` to the italic
class (twice), but the tokenizer's character class contains uppercase `I`
and not lowercase `i`, so `&i` is never tokenized as a code: on input
`&iText` the whole input is a single literal text part and the output is
the escaped input, with no italic segment. -/
theorem claim_C1_italic_code_dead :
    formatMapLookup "&i".data = some "message-format-italic".data ∧
    'i' ∉ codeAlphabet ∧
    tokenize "&iText".data = [Token.text "&iText".data] ∧
    formatMessageBoardText "&iText".data = "&amp;iText".data :=
  ⟨rfl, by decide, rfl, rfl⟩

/-- C2 counterexample: the tokenizer produces the code token for `&6` on
input `&6`, the code table has no entry for it, and the not-found branch
emits it as escaped literal text — so "every code token has an entry in
the code table" fails. -/
theorem claim_C2_counterexample :
    Token.code '6' ∈ tokenize "&6".data ∧
    formatMapLookup "&6".data = none ∧
    formatMessageBoardText "&6".data = "&amp;6".data :=
  ⟨by decide, rfl, rfl⟩

/-- C2 amended: a code token produced by the tokenizer has an entry in
the code table exactly when its captured character is one of
`0 1 2 3 4 5 b k l m n r`; for every other alphabet character the lookup
fails, so the not-found fallback branch is reachable. -/
theorem claim_C2_lookup_domain :
    ∀ c ∈ codeAlphabet,
      ((formatMapLookup ['&', c]).isSome ↔ c ∈ mappedAlphabetChars) := by
  decide

theorem claim_C2_witness :
    '6' ∈ codeAlphabet ∧
    ((formatMapLookup ['&', '6']).isSome ↔ '6' ∈ mappedAlphabetChars) :=
  ⟨by decide, claim_C2_lookup_domain '6' (by decide)⟩

/-- C3 counterexample: on input `&1Hello` the un-escaped text content of
the output is `Hello`, not the original input — the consumed code `&1`
is removed, so the round-trip claim fails as stated for inputs with
recognized codes. -/
theorem claim_C3_counterexample :
    unescapeHtml (strippedContent "&1Hello".data) ≠ "&1Hello".data := by
  rw [show strippedContent "&1Hello".data = escapeHtml "Hello".data from rfl,
    unescape_escape]
  decide

/-- C3 amended: dropping the span structure and reversing the escaping
yields the input with every table-mapped code token removed — the
concatenation, in original order, of all literal text parts and all
unrecognized code parts; nothing else is removed and nothing is
reordered. -/
theorem claim_C3_content_roundtrip :
    ∀ s, unescapeHtml (strippedContent s) = plainTokens (tokenize s) := by
  intro s
  exact unescape_strippedContent s

/-- C4 counterexample: in `&&1` the first marker's follower is itself a
marker beginning the code `&1`, so the follower is consumed as a code
marker and does not appear in the output: the content is the escaped
first marker alone, refuting "its follower, if any, is emitted as
escaped literal text". -/
theorem claim_C4_counterexample :
    strippedContent "&&1".data = escapeHtml "&".data ∧
    Token.code '1' ∈ tokenize "&&1".data ∧
    formatMessageBoardText "&&1".data = "&amp;".data :=
  ⟨rfl, by decide, rfl⟩

/-- C4 amended: a marker not immediately followed by an alphabet
character is itself never consumed as a code and never dropped:
reassembling all parts in order recovers the input exactly and code
tokens carry only alphabet characters; a trailing marker, and a marker
whose follower is not consumed by a later match, are emitted as escaped
literal text in position (the follower may instead begin a new code, as
in `&&1`). -/
theorem claim_C4_marker_passthrough :
    (∀ s, detok (tokenize s) = s) ∧
    (∀ s c, Token.code c ∈ tokenize s → c ∈ codeAlphabet) ∧
    (∀ t, '&' ∉ t → formatMessageBoardText (t ++ ['&']) = escapeHtml (t ++ ['&'])) ∧
    (∀ t d, '&' ∉ t → d ∉ codeAlphabet →
      formatMessageBoardText (t ++ ['&', d]) = escapeHtml (t ++ ['&', d])) := by
  refine ⟨detok_tokenize, ?_, ?_, ?_⟩
  · intro s c h
    exact code_mem_alphabet [] s c h
  · intro t ht
    unfold formatMessageBoardText formatSegments
    rw [tokenize_trailing t ht]
    exact render_single_text (t ++ ['&']) (by simp)
  · intro t d ht hd
    unfold formatMessageBoardText formatSegments
    rw [tokenize_bad_pair t d ht hd]
    exact render_single_text (t ++ ['&', d]) (by simp)

theorem claim_C4_witness :
    ('&' ∉ "a".data) ∧ ('Z' ∉ codeAlphabet) ∧
    formatMessageBoardText ("a".data ++ ['&']) = escapeHtml ("a".data ++ ['&']) ∧
    formatMessageBoardText ("a".data ++ ['&', 'Z']) = escapeHtml ("a".data ++ ['&', 'Z']) :=
  ⟨by decide, by decide,
   claim_C4_marker_passthrough.2.2.1 "a".data (by decide),
   claim_C4_marker_passthrough.2.2.2 "a".data 'Z' (by decide) (by decide)⟩

/-- C5: `&1&2Text` yields exactly one segment, for `Text`, carrying
exactly the class `message-color-2`; a run of consecutive color codes
leaves the format set unchanged and sets the color to the last code's
class; and in every reachable state the active color is unset or exactly
one of the six color classes. -/
theorem claim_C5_color_exclusivity :
    formatSegments "&1&2Text".data = [(["message-color-2".data], "Text".data)] ∧
    formatMessageBoardText "&1&2Text".data
      = "<span class=\"message-color-2\">Text</span>".data ∧
    (∀ st cs c, (∀ x ∈ cs, x ∈ colorChars) → c ∈ colorChars →
      stateAfter st ((cs ++ [c]).map Token.code)
        = { st with activeColorClass := formatMapLookup ['&', c] }) ∧
    (∀ toks, colorInv (stateAfter initState toks)) := by
  refine ⟨rfl, rfl, ?_, ?_⟩
  · intro st cs c h1 h2
    exact colors_last cs st c h1 h2
  · intro toks
    exact colorInv_stateAfter toks initState (Or.inl rfl)

theorem claim_C5_witness :
    (∀ x ∈ ['1'], x ∈ colorChars) ∧ '2' ∈ colorChars ∧
    stateAfter initState ((['1'] ++ ['2']).map Token.code)
      = { initState with activeColorClass := formatMapLookup ['&', '2'] } :=
  ⟨by decide, by decide,
   claim_C5_color_exclusivity.2.2.1 initState ['1'] '2' (by decide) (by decide)⟩

/-- C6: `&lBold&rPlain` renders a bold segment for `Bold` followed by
the unwrapped escaped `Plain`; a reset code restores the clean state
(clearing color and formats together) while emitting nothing; and the
reset class is never a member of the format set in any reachable state. -/
theorem claim_C6_reset_clears_state :
    formatMessageBoardText "&lBold&rPlain".data
      = "<span class=\"message-format-bold\">Bold</span>Plain".data ∧
    (∀ st, stepState st (Token.code 'r') = initState ∧
      stepEmit st (Token.code 'r') = []) ∧
    (∀ toks, noResetClass (stateAfter initState toks)) := by
  refine ⟨rfl, ?_, ?_⟩
  · intro st
    exact ⟨rfl, rfl⟩
  · intro toks
    exact noResetClass_stateAfter toks initState (fun hx => absurd hx (List.not_mem_nil _))

theorem claim_C6_witness :
    formatMessageBoardText "&lBold&rPlain".data
      = "<span class=\"message-format-bold\">Bold</span>Plain".data ∧
    noResetClass (stateAfter initState [Token.code 'l', Token.code 'r']) :=
  ⟨claim_C6_reset_clears_state.1,
   claim_C6_reset_clears_state.2.2 [Token.code 'l', Token.code 'r']⟩

/-- C7: `&l&nBoth` yields one segment for `Both` whose class attribute
is `message-format-bold message-format-underline` in insertion order;
every emitted text segment carries the active formats in insertion order
followed by the active color if set; and re-applying an already active
format code is a no-op on the state. -/
theorem claim_C7_format_stacking :
    formatMessageBoardText "&l&nBoth".data
      = "<span class=\"message-format-bold message-format-underline\">Both</span>".data ∧
    (∀ st t, t ≠ [] → stepEmit st (Token.text t)
      = [(st.activeClasses ++
          (match st.activeColorClass with
           | some c => [c]
           | none => []), escapeHtml t)]) ∧
    (∀ st c cls, formatMapLookup ['&', c] = some cls →
      cls ≠ "message-format-reset".data →
      List.isPrefixOf "message-format-".data cls = true →
      cls ∈ st.activeClasses →
      stepState st (Token.code c) = st) := by
  refine ⟨rfl, ?_, ?_⟩
  · intro st t ht
    simp [stepEmit, ht, classesToApply]
  · intro st c cls hl hne hp hmem
    exact stepState_format_mem st c cls hl hne hp hmem

theorem claim_C7_witness :
    (("x".data : List Char) ≠ []) ∧
    stepEmit initState (Token.text "x".data)
      = [(initState.activeClasses ++
          (match initState.activeColorClass with
           | some c => [c]
           | none => []), escapeHtml "x".data)] ∧
    stepState { activeClasses := ["message-format-bold".data], activeColorClass := none }
        (Token.code 'l')
      = { activeClasses := ["message-format-bold".data], activeColorClass := none } :=
  ⟨by decide, claim_C7_format_stacking.2.1 initState "x".data (by decide),
   claim_C7_format_stacking.2.2
     { activeClasses := ["message-format-bold".data], activeColorClass := none }
     'l' "message-format-bold".data rfl (by decide) (by decide) (by decide)⟩

/-- C8: `escapeHtml` maps the five special characters to their character
references and every other character to itself, and on inputs with no
marker character `formatMessageBoardText` is exactly `escapeHtml`. -/
theorem claim_C8_no_code_identity :
    (escapeChar '&' = "&amp;".data ∧ escapeChar '<' = "&lt;".data ∧
     escapeChar '>' = "&gt;".data ∧ escapeChar (Char.ofNat 34) = "&quot;".data ∧
     escapeChar (Char.ofNat 39) = "&#039;".data) ∧
    (∀ c, c ∉ ['&', '<', '>', Char.ofNat 34, Char.ofNat 39] → escapeChar c = [c]) ∧
    (∀ s, '&' ∉ s → formatMessageBoardText s = escapeHtml s) := by
  refine ⟨⟨rfl, rfl, rfl, rfl, rfl⟩, ?_, ?_⟩
  · intro c hc
    simp only [List.mem_cons, List.not_mem_nil, or_false, not_or] at hc
    obtain ⟨h1, h2, h3, h4, h5⟩ := hc
    simp [escapeChar, h1, h2, h3, h4, h5]
  · intro s hs
    unfold formatMessageBoardText formatSegments
    rw [tokenize_no_amp s hs]
    by_cases he : s = []
    · subst he
      simp [processTokens, stepEmit, escapeHtml]
    · exact render_single_text s he

theorem claim_C8_witness :
    ('&' ∉ "abc".data) ∧ formatMessageBoardText "abc".data = escapeHtml "abc".data :=
  ⟨by decide, claim_C8_no_code_identity.2.2 "abc".data (by decide)⟩

/-- C9: every class name in any emitted segment of any decode belongs to
the closed set of six color classes, five format classes and the reset
class; no class name outside this set is ever emitted. -/
theorem claim_C9_closed_class_set :
    ∀ s, ∀ seg ∈ formatSegments s, ∀ x ∈ seg.1, x ∈ allowedClassNames := by
  intro s seg hseg x hx
  refine processTokens_classes_allowed (tokenize s) initState ⟨?_, ?_⟩ seg hseg x hx
  · intro y hy
    exact absurd hy (List.not_mem_nil y)
  · intro y hy
    exact Option.noConfusion hy

theorem claim_C9_witness :
    ((["message-color-1".data], "x".data) : Segment) ∈ formatSegments "&1x".data ∧
    "message-color-1".data ∈ (["message-color-1".data] : List (List Char)) ∧
    "message-color-1".data ∈ allowedClassNames :=
  ⟨by decide, by decide,
   claim_C9_closed_class_set "&1x".data (["message-color-1".data], "x".data)
     (by decide) "message-color-1".data (by decide)⟩

/-- C10: a code token whose character is in the tokenizer alphabet but
outside the map's key set (6-9, a, c, d, e, f, A-F, B, I, o) is appended
as escaped literal text carrying exactly the currently active classes,
and leaves both the color and the format set unchanged. -/
theorem claim_C10_unmapped_passthrough :
    ∀ st c, c ∈ unmappedAlphabetChars →
      c ∈ codeAlphabet ∧
      formatMapLookup ['&', c] = none ∧
      stepEmit st (Token.code c) = [(classesToApply st, escapeHtml ['&', c])] ∧
      stepState st (Token.code c) = st := by
  intro st c hc
  simp only [unmappedAlphabetChars, List.mem_cons, List.not_mem_nil, or_false] at hc
  rcases hc with rfl|rfl|rfl|rfl|rfl|rfl|rfl|rfl|rfl|rfl|rfl|rfl|rfl|rfl|rfl|rfl|rfl <;>
    exact ⟨by decide, rfl, rfl, rfl⟩

theorem claim_C10_witness :
    '6' ∈ unmappedAlphabetChars ∧
    stepEmit initState (Token.code '6')
      = [(classesToApply initState, escapeHtml ['&', '6'])] ∧
    stepState initState (Token.code '6') = initState :=
  ⟨by decide, (claim_C10_unmapped_passthrough initState '6' (by decide)).2.2.1,
   (claim_C10_unmapped_passthrough initState '6' (by decide)).2.2.2⟩

end Fusemods
